import Mathlib

/-!
Verification of the deepgrep retrieval core.

The Python modules `deepgrep/metrics/__init__.py`, `deepgrep/ml/rag.py` and
`deepgrep/ml/vector_store.py` are embedded shallowly below.  Real-valued
quantities are modelled over `ℚ` (the Python computations on the inputs we
study involve only field operations), sets of document identifiers as
`Finset ℕ`, ranked lists as `List ℕ`, and Python dictionaries as association
lists with distinct keys.
-/

namespace Deepgrep

/-- Embedding of `SearchMetrics.precision` (metrics/__init__.py, lines 10-26):
`0` for an empty retrieved set, otherwise `|R ∩ L| / |R|`. -/
def precision (retrieved relevant : Finset ℕ) : ℚ :=
  if retrieved = ∅ then 0
  else ((retrieved ∩ relevant).card : ℚ) / retrieved.card

/-- Embedding of `SearchMetrics.recall` (metrics/__init__.py, lines 28-44):
`0` for an empty relevant set, otherwise `|R ∩ L| / |L|`.  (The apostrophe in
the Lean name only avoids the `recall` tactic keyword.) -/
def recall' (retrieved relevant : Finset ℕ) : ℚ :=
  if relevant = ∅ then 0
  else ((retrieved ∩ relevant).card : ℚ) / relevant.card

/-- Embedding of `SearchMetrics.f1_score` (metrics/__init__.py, lines 46-64):
harmonic mean of precision and recall, `0` when their sum is `0`. -/
def f1_score (retrieved relevant : Finset ℕ) : ℚ :=
  let prec := precision retrieved relevant
  let rcl := recall' retrieved relevant
  if prec + rcl = 0 then 0 else 2 * (prec * rcl) / (prec + rcl)

/-- The accumulation loop of `SearchMetrics.average_precision`
(metrics/__init__.py, lines 84-91): walking the ranked list with running index
`i` and running count `cnt` of relevant items seen so far, it records
`(cnt+1)/(i+1)` at every rank holding a relevant item. -/
def apLoop (relevant : Finset ℕ) : List ℕ → ℕ → ℕ → List ℚ
  | [], _, _ => []
  | d :: rest, i, cnt =>
    if d ∈ relevant then
      (((cnt + 1 : ℕ) : ℚ) / ((i : ℚ) + 1)) :: apLoop relevant rest (i + 1) (cnt + 1)
    else apLoop relevant rest (i + 1) cnt

/-- Embedding of `SearchMetrics.average_precision` (metrics/__init__.py,
lines 66-96). -/
def average_precision (retrievedRanked : List ℕ) (relevant : Finset ℕ) : ℚ :=
  if relevant = ∅ ∨ retrievedRanked = [] then 0
  else
    let precisions := apLoop relevant retrievedRanked 0 0
    if precisions = [] then 0 else precisions.sum / relevant.card

/-- Embedding of `SearchMetrics.mean_average_precision` (metrics/__init__.py,
lines 98-119). -/
def mean_average_precision (queriesResults : List (List ℕ × Finset ℕ)) : ℚ :=
  if queriesResults = [] then 0
  else (queriesResults.map (fun p => average_precision p.1 p.2)).sum / queriesResults.length

/-- The discounted sum `Σ rels[j] / disc (i+j)` used for both DCG and IDCG in
`SearchMetrics.ndcg` (metrics/__init__.py, lines 142-151).  The discount
function `disc` stands for `fun i => log2 (i+2)` of the source; theorems
assume only properties that are true of that function (positivity). -/
def dcgSum (disc : ℕ → ℚ) : ℕ → List ℚ → ℚ
  | _, [] => 0
  | i, r :: rs => r / disc i + dcgSum disc (i + 1) rs

/-- Python's stable `sorted(scores.items(), key=value, reverse=True)` used at
metrics/__init__.py line 148: a stable insertion sort putting larger second
components first (on ties the earlier element stays first, as
`List.insertionSort` inserts from the right). -/
def sortDescBySnd (scores : List (ℕ × ℚ)) : List (ℕ × ℚ) :=
  List.insertionSort (fun a b => b.2 ≤ a.2) scores

/-- Python's `relevance_scores.get(doc_id, 0.0)` (metrics/__init__.py,
line 144), with the dictionary modelled as an association list. -/
def relOf (scores : List (ℕ × ℚ)) (docId : ℕ) : ℚ := (scores.lookup docId).getD 0

/-- Embedding of `SearchMetrics.ndcg` (metrics/__init__.py, lines 121-156),
parametrised by the discount function `disc` standing for `np.log2 (· + 2)`. -/
def ndcg (disc : ℕ → ℚ) (retrievedRanked : List ℕ) (scores : List (ℕ × ℚ)) (k : ℕ) : ℚ :=
  if retrievedRanked = [] ∨ scores = [] then 0
  else
    let dcg := dcgSum disc 0 ((retrievedRanked.take k).map (relOf scores))
    let idcg := dcgSum disc 0 (((sortDescBySnd scores).take k).map Prod.snd)
    if idcg = 0 then 0 else dcg / idcg

/-- The per-query reciprocal rank of `SearchMetrics.mrr`
(metrics/__init__.py, lines 173-179): `1/(i+1)` for the first rank `i`
holding a relevant item, `0` if none does. -/
def reciprocalRank (retrieved : List ℕ) (relevant : Finset ℕ) : ℚ :=
  match retrieved.findIdx? (fun d => decide (d ∈ relevant)) with
  | some i => 1 / ((i : ℚ) + 1)
  | none => 0

/-- Embedding of `SearchMetrics.mrr` (metrics/__init__.py, lines 158-181). -/
def mrr (queriesResults : List (List ℕ × Finset ℕ)) : ℚ :=
  if queriesResults = [] then 0
  else (queriesResults.map (fun p => reciprocalRank p.1 p.2)).sum / queriesResults.length

/-- C1: the spec asserts every metric always returns a value in `[0, 1]`,
and the source docstring of `average_precision` likewise promises "Average
Precision score between 0 and 1"; but on the ranked list `[1, 1]` (a
duplicated identifier) with relevant set `{1}` the code returns `2`. -/
theorem average_precision_two_on_duplicates :
    average_precision [1, 1] ({1} : Finset ℕ) = 2 := by
  norm_num [average_precision, apLoop, List.cons_ne_nil]

theorem precision_eq_zero_iff (R L : Finset ℕ) (hR : R ≠ ∅) :
    precision R L = 0 ↔ (R ∩ L).card = 0 := by
  have hcard : (0 : ℚ) < R.card := by
    exact_mod_cast Finset.card_pos.mpr (Finset.nonempty_iff_ne_empty.mpr hR)
  rw [precision, if_neg hR, div_eq_zero_iff]
  constructor
  · rintro (h | h)
    · exact_mod_cast h
    · exact absurd h (ne_of_gt hcard)
  · intro h
    left
    exact_mod_cast h

theorem recall_eq_zero_iff (R L : Finset ℕ) (hL : L ≠ ∅) :
    recall' R L = 0 ↔ (R ∩ L).card = 0 := by
  have hcard : (0 : ℚ) < L.card := by
    exact_mod_cast Finset.card_pos.mpr (Finset.nonempty_iff_ne_empty.mpr hL)
  rw [recall', if_neg hL, div_eq_zero_iff]
  constructor
  · rintro (h | h)
    · exact_mod_cast h
    · exact absurd h (ne_of_gt hcard)
  · intro h
    left
    exact_mod_cast h

theorem precision_mem_unitInterval (R L : Finset ℕ) :
    0 ≤ precision R L ∧ precision R L ≤ 1 := by
  rw [precision]
  split
  · norm_num
  · next hR =>
    have hcard : (0 : ℚ) < R.card := by
      exact_mod_cast Finset.card_pos.mpr (Finset.nonempty_iff_ne_empty.mpr hR)
    constructor
    · positivity
    · rw [div_le_one hcard]
      exact_mod_cast Finset.card_le_card Finset.inter_subset_left

theorem recall_mem_unitInterval (R L : Finset ℕ) :
    0 ≤ recall' R L ∧ recall' R L ≤ 1 := by
  rw [recall']
  split
  · norm_num
  · next hL =>
    have hcard : (0 : ℚ) < L.card := by
      exact_mod_cast Finset.card_pos.mpr (Finset.nonempty_iff_ne_empty.mpr hL)
    constructor
    · positivity
    · rw [div_le_one hcard]
      exact_mod_cast Finset.card_le_card Finset.inter_subset_right

/-- C5: for non-empty retrieved and relevant sets, precision and recall are
the stated intersection ratios, all three scores lie in `[0, 1]`, `f1` is the
harmonic mean of precision and recall whenever their sum is non-zero, and
`f1 = 0` exactly when precision and recall are both `0`. -/
theorem precision_recall_f1_properties (R L : Finset ℕ) (hR : R ≠ ∅) (hL : L ≠ ∅) :
    precision R L = ((R ∩ L).card : ℚ) / R.card ∧
    recall' R L = ((R ∩ L).card : ℚ) / L.card ∧
    (0 ≤ precision R L ∧ precision R L ≤ 1) ∧
    (0 ≤ recall' R L ∧ recall' R L ≤ 1) ∧
    (0 ≤ f1_score R L ∧ f1_score R L ≤ 1) ∧
    (precision R L + recall' R L ≠ 0 →
      f1_score R L = 2 * (precision R L * recall' R L) / (precision R L + recall' R L)) ∧
    (f1_score R L = 0 ↔ precision R L = 0 ∧ recall' R L = 0) := by
  obtain ⟨hp0, hp1⟩ := precision_mem_unitInterval R L
  obtain ⟨hr0, hr1⟩ := recall_mem_unitInterval R L
  refine ⟨by rw [precision, if_neg hR], by rw [recall', if_neg hL], ⟨hp0, hp1⟩, ⟨hr0, hr1⟩,
    ?_, ?_, ?_⟩
  · rw [f1_score]
    split
    · norm_num
    · next hpr =>
      have hsum : 0 < precision R L + recall' R L :=
        lt_of_le_of_ne (by linarith) (Ne.symm hpr)
      constructor
      · positivity
      · rw [div_le_one hsum]
        nlinarith [mul_nonneg (sub_nonneg.mpr hp1) hr0, mul_nonneg (sub_nonneg.mpr hr1) hp0]
  · intro hpr
    rw [f1_score]
    simp only [if_neg hpr]
  · constructor
    · intro h0
      by_cases hpr : precision R L + recall' R L = 0
      · constructor <;> linarith
      · rw [f1_score] at h0
        simp only [if_neg hpr] at h0
        rcases div_eq_zero_iff.mp h0 with h | h
        · have hmul : precision R L * recall' R L = 0 := by linarith
          rcases mul_eq_zero.mp hmul with h' | h'
          · have : (R ∩ L).card = 0 := (precision_eq_zero_iff R L hR).mp h'
            exact ⟨h', (recall_eq_zero_iff R L hL).mpr this⟩
          · have : (R ∩ L).card = 0 := (recall_eq_zero_iff R L hL).mp h'
            exact ⟨(precision_eq_zero_iff R L hR).mpr this, h'⟩
        · exact absurd h hpr
    · rintro ⟨h1, h2⟩
      rw [f1_score]
      simp [h1, h2]

/-- Witness for `precision_recall_f1_properties` at the spec example
`R = {1,2,3,4}`, `L = {2,3,4,5}`. -/
theorem precision_recall_f1_properties_witness :
    precision {1, 2, 3, 4} {2, 3, 4, 5} = (({1, 2, 3, 4} ∩ {2, 3, 4, 5} : Finset ℕ).card : ℚ) /
      ({1, 2, 3, 4} : Finset ℕ).card ∧
    recall' {1, 2, 3, 4} {2, 3, 4, 5} = (({1, 2, 3, 4} ∩ {2, 3, 4, 5} : Finset ℕ).card : ℚ) /
      ({2, 3, 4, 5} : Finset ℕ).card ∧
    (0 ≤ precision {1, 2, 3, 4} {2, 3, 4, 5} ∧ precision {1, 2, 3, 4} {2, 3, 4, 5} ≤ 1) ∧
    (0 ≤ recall' {1, 2, 3, 4} {2, 3, 4, 5} ∧ recall' {1, 2, 3, 4} {2, 3, 4, 5} ≤ 1) ∧
    (0 ≤ f1_score {1, 2, 3, 4} {2, 3, 4, 5} ∧ f1_score {1, 2, 3, 4} {2, 3, 4, 5} ≤ 1) ∧
    (precision {1, 2, 3, 4} {2, 3, 4, 5} + recall' {1, 2, 3, 4} {2, 3, 4, 5} ≠ 0 →
      f1_score {1, 2, 3, 4} {2, 3, 4, 5} =
        2 * (precision {1, 2, 3, 4} {2, 3, 4, 5} * recall' {1, 2, 3, 4} {2, 3, 4, 5}) /
          (precision {1, 2, 3, 4} {2, 3, 4, 5} + recall' {1, 2, 3, 4} {2, 3, 4, 5})) ∧
    (f1_score {1, 2, 3, 4} {2, 3, 4, 5} = 0 ↔
      precision {1, 2, 3, 4} {2, 3, 4, 5} = 0 ∧ recall' {1, 2, 3, 4} {2, 3, 4, 5} = 0) :=
  precision_recall_f1_properties {1, 2, 3, 4} {2, 3, 4, 5} (by decide) (by decide)

theorem apLoop_eq (L : Finset ℕ) (l : List ℕ) : ∀ (i cnt : ℕ),
    apLoop L l i cnt =
      ((List.range l.length).filter (fun j => decide (l.getD j 0 ∈ L))).map
        (fun j => (((cnt + (l.take (j + 1)).countP (fun d => decide (d ∈ L)) : ℕ)) : ℚ) /
          ((i : ℚ) + (j : ℚ) + 1)) := by
  induction l with
  | nil => intro i cnt; simp [apLoop]
  | cons d rest ih =>
    intro i cnt
    rw [List.length_cons, List.range_succ_eq_map]
    by_cases hd : d ∈ L
    · rw [apLoop, if_pos hd, List.filter_cons_of_pos (by simp [hd]), List.map_cons]
      congr 1
      · simp only [List.take_succ_cons, List.take_zero, List.countP_cons, List.countP_nil,
          hd, decide_True, if_true, Nat.cast_zero]
        push_cast
        ring
      · rw [List.filter_map, List.map_map, ih (i + 1) (cnt + 1)]
        apply List.map_congr_left
        intro j hj
        simp only [Function.comp_apply, Nat.succ_eq_add_one, List.take_succ_cons,
          List.countP_cons, hd, decide_True, if_true]
        push_cast
        ring_nf
    · rw [apLoop, if_neg hd, List.filter_cons_of_neg (by simp [hd])]
      rw [List.filter_map, List.map_map, ih (i + 1) cnt]
      apply List.map_congr_left
      intro j hj
      simp only [Function.comp_apply, Nat.succ_eq_add_one, List.take_succ_cons,
        List.countP_cons, hd, decide_False, if_false]
      push_cast
      ring_nf

theorem noRelevantRetrieved_iff (l : List ℕ) (L : Finset ℕ) :
    (List.range l.length).filter (fun j => decide (l.getD j 0 ∈ L)) = [] ↔ ∀ d ∈ l, d ∉ L := by
  rw [List.filter_eq_nil_iff]
  constructor
  · intro h d hd
    obtain ⟨n, hn, rfl⟩ := List.mem_iff_getElem.mp hd
    have hfn := h n (List.mem_range.mpr hn)
    rw [List.getD_eq_getElem l 0 hn] at hfn
    simpa using hfn
  · intro h j hj
    simp only [List.mem_range] at hj
    have hmem : l.getD j 0 ∈ l := by
      rw [List.getD_eq_getElem l 0 hj]
      exact List.getElem_mem hj
    simp only [decide_eq_true_eq]
    exact h _ hmem

/-- C4: `average_precision` computes the spec formula: the sum, over the ranks
at which the retrieved item is relevant, of the precisions at those ranks
(number of relevant items within the first `j+1` over `j+1`), divided by the
size of the relevant set; and `0` when the relevant set is empty or no
relevant item is retrieved. -/
theorem average_precision_eq_formula (l : List ℕ) (L : Finset ℕ) :
    average_precision l L =
      if L = ∅ ∨ (∀ d ∈ l, d ∉ L) then 0
      else (((List.range l.length).filter (fun j => decide (l.getD j 0 ∈ L))).map
          (fun j => (((l.take (j + 1)).countP (fun d => decide (d ∈ L)) : ℕ) : ℚ) /
            ((j : ℚ) + 1))).sum / L.card := by
  by_cases hL : L = ∅
  · simp [average_precision, hL]
  by_cases hl : l = []
  · subst hl
    simp [average_precision, hL]
  rw [average_precision, if_neg (by simp [hL, hl])]
  rw [apLoop_eq L l 0 0]
  by_cases hnone : ∀ d ∈ l, d ∉ L
  · rw [if_pos (Or.inr hnone), (noRelevantRetrieved_iff l L).mpr hnone]
    simp
  · have hfil : (List.range l.length).filter (fun j => decide (l.getD j 0 ∈ L)) ≠ [] :=
      fun h => hnone ((noRelevantRetrieved_iff l L).mp h)
    rw [if_neg (mt List.map_eq_nil_iff.mp hfil), if_neg (fun h => h.elim hL hnone)]
    congr 1
    congr 1
    apply List.map_congr_left
    intro j hj
    push_cast
    ring

instance : IsTotal (ℕ × ℚ) (fun a b => b.2 ≤ a.2) := ⟨fun a b => le_total b.2 a.2⟩

instance : IsTrans (ℕ × ℚ) (fun a b => b.2 ≤ a.2) := ⟨fun _ _ _ hab hbc => le_trans hbc hab⟩

theorem lookup_eq_of_nodup_keys :
    ∀ (scores : List (ℕ × ℚ)), (scores.map Prod.fst).Nodup →
      ∀ {p : ℕ × ℚ}, p ∈ scores → scores.lookup p.1 = some p.2
  | [], _, _, hp => absurd hp (List.not_mem_nil _)
  | (k, v) :: rest, h, p, hp => by
    rw [List.map_cons, List.nodup_cons] at h
    rcases List.mem_cons.mp hp with rfl | hmem
    · simp [List.lookup]
    · have hne : p.1 ≠ k := fun he =>
        h.1 (he ▸ List.mem_map.mpr ⟨p, hmem, rfl⟩)
      have : (p.1 == k) = false := beq_eq_false_iff_ne.mpr hne
      simp only [List.lookup, this]
      exact lookup_eq_of_nodup_keys rest h.2 hmem

theorem dcgSum_nonneg (disc : ℕ → ℚ) (hdisc : ∀ i, 0 < disc i) :
    ∀ (i : ℕ) (rels : List ℚ), (∀ r ∈ rels, 0 ≤ r) → 0 ≤ dcgSum disc i rels
  | _, [], _ => le_refl 0
  | i, r :: rs, h => by
    simp only [dcgSum]
    have h1 : 0 ≤ r / disc i := div_nonneg (h r (List.mem_cons_self r rs)) (le_of_lt (hdisc i))
    have h2 : 0 ≤ dcgSum disc (i + 1) rs :=
      dcgSum_nonneg disc hdisc (i + 1) rs (fun x hx => h x (List.mem_cons_of_mem r hx))
    linarith

/-- C6 (amended): for a relevance mapping with pairwise-distinct keys, scores
all non-negative and at least one positive, and any positive discount
sequence (as `np.log2 (· + 2)` is) and any `k ≥ 1`, the NDCG of the ranking
given by the mapping's keys sorted by descending score, evaluated against
that same mapping, is exactly `1`. -/
theorem ndcg_self_ranking_eq_one (disc : ℕ → ℚ) (scores : List (ℕ × ℚ)) (k : ℕ)
    (hdisc : ∀ i, 0 < disc i) (hkeys : (scores.map Prod.fst).Nodup)
    (hnonneg : ∀ p ∈ scores, 0 ≤ p.2) (hpos : ∃ p ∈ scores, 0 < p.2) (hk : 1 ≤ k) :
    ndcg disc ((sortDescBySnd scores).map Prod.fst) scores k = 1 := by
  obtain ⟨p₀, hp₀, hp₀pos⟩ := hpos
  have hsc : scores ≠ [] := by rintro rfl; exact absurd hp₀ (List.not_mem_nil p₀)
  have hperm : List.Perm (sortDescBySnd scores) scores := List.perm_insertionSort _ scores
  have hsorted : List.Sorted (fun a b : ℕ × ℚ => b.2 ≤ a.2) (sortDescBySnd scores) :=
    List.sorted_insertionSort _ scores
  have hidnil : sortDescBySnd scores ≠ [] := by
    intro h
    exact hsc ((h ▸ hperm).symm.eq_nil)
  have hmapnil : (sortDescBySnd scores).map Prod.fst ≠ [] :=
    mt List.map_eq_nil_iff.mp hidnil
  have hrel : (((sortDescBySnd scores).map Prod.fst).take k).map (relOf scores) =
      ((sortDescBySnd scores).take k).map Prod.snd := by
    rw [← List.map_take, List.map_map]
    apply List.map_congr_left
    intro p hp
    have hmem : p ∈ scores := hperm.subset (List.mem_of_mem_take hp)
    simp only [Function.comp_apply, relOf, lookup_eq_of_nodup_keys scores hkeys hmem,
      Option.getD_some]
  have hpossum : 0 < dcgSum disc 0 (((sortDescBySnd scores).take k).map Prod.snd) := by
    obtain ⟨hd, tl, hcons⟩ := List.exists_cons_of_ne_nil hidnil
    obtain ⟨k', rfl⟩ : ∃ m, k = m + 1 := ⟨k - 1, by omega⟩
    rw [hcons, List.take_succ_cons, List.map_cons]
    simp only [dcgSum]
    have hhd : 0 < hd.2 := by
      have hp₀ideal : p₀ ∈ sortDescBySnd scores := hperm.symm.subset hp₀
      rw [hcons] at hp₀ideal hsorted
      rcases List.mem_cons.mp hp₀ideal with rfl | hmem
      · exact hp₀pos
      · exact lt_of_lt_of_le hp₀pos ((List.sorted_cons.mp hsorted).1 p₀ hmem)
    have h1 : 0 < hd.2 / disc 0 := div_pos hhd (hdisc 0)
    have h2 : 0 ≤ dcgSum disc 1 ((tl.take k').map Prod.snd) := by
      apply dcgSum_nonneg disc hdisc
      intro r hr
      obtain ⟨q, hq, rfl⟩ := List.mem_map.mp hr
      have hqs : q ∈ scores := hperm.subset (hcons ▸ List.mem_cons_of_mem hd
        (List.mem_of_mem_take hq))
      exact hnonneg q hqs
    linarith
  rw [ndcg, if_neg (fun h => h.elim hmapnil hsc)]
  simp only [hrel]
  rw [if_neg (ne_of_gt hpossum)]
  exact div_self (ne_of_gt hpossum)

/-- A concrete positive discount sequence standing in for the source's
`np.log2 (i + 2)`: it is `1` at index `0` (as `log2 2` is, exactly, even in
floating point) and at index `1` holds a rational denoting `log2 3`
(`1.584962500721156`, the decimal rendering of the double).  The arguments
below use only that `discEx` is positive and that dividing a value by itself
gives exactly `1` — both of which hold of the floating-point original. -/
def discEx : ℕ → ℚ := fun i =>
  if i = 0 then 1 else if i = 1 then 1584962500721156 / 1000000000000000 else (i : ℚ) + 2

theorem discEx_pos : ∀ i, 0 < discEx i := by
  intro i
  simp only [discEx]
  split
  · norm_num
  · split
    · norm_num
    · positivity

/-- C6 counterexample: a relevance mapping may contain a positive score and
still drive `IDCG` to exactly `0` through a negative score equal to
`-(disc 1)` (concretely, `ndcg([1, 2], {1: 1.0, 2: -log2(3)}, 10)`: the ideal
DCG is `1.0/log2(2) + (-log2(3))/log2(3) = 1 - 1 = 0`, exact also in floating
point), so the code returns `0`, not `1`, on the ranking sorted by descending
relevance. -/
theorem ndcg_self_ranking_cancellation :
    ndcg discEx
      ((sortDescBySnd [(1, 1), (2, -(1584962500721156 / 1000000000000000))]).map Prod.fst)
      [(1, 1), (2, -(1584962500721156 / 1000000000000000))] 10 = 0 ∧
    ndcg discEx
      ((sortDescBySnd [(1, 1), (2, -(1584962500721156 / 1000000000000000))]).map Prod.fst)
      [(1, 1), (2, -(1584962500721156 / 1000000000000000))] 10 ≠ 1 := by
  have h : ndcg discEx
      ((sortDescBySnd [(1, 1), (2, -(1584962500721156 / 1000000000000000))]).map Prod.fst)
      [(1, 1), (2, -(1584962500721156 / 1000000000000000))] 10 = 0 := by
    norm_num [ndcg, sortDescBySnd, List.insertionSort, List.orderedInsert, relOf,
      List.lookup, dcgSum, discEx]
  exact ⟨h, by rw [h]; norm_num⟩

/-- Witness for `ndcg_self_ranking_eq_one` at the concrete mapping
`{1 ↦ 2, 2 ↦ 1}` with `k = 10`. -/
theorem ndcg_self_ranking_eq_one_witness :
    ndcg discEx ((sortDescBySnd [(1, 2), (2, 1)]).map Prod.fst) [(1, 2), (2, 1)] 10 = 1 :=
  ndcg_self_ranking_eq_one discEx [(1, 2), (2, 1)] 10 discEx_pos (by decide)
    (by decide) ⟨(1, 2), by decide, by norm_num⟩ (by norm_num)

/-- The loop `for i in range(0, len(units), step): chunk = units[i:i+size];
if chunk: chunks.append(chunk)` shared by `DocumentChunker.chunk_by_sentences`
and `chunk_by_tokens` (ml/rag.py, lines 36-41 and 62-67), for a positive
step.  `fuel` only drives structural recursion; `windows` instantiates it
with the list length, which suffices because each iteration with `step ≥ 1`
advances by at least one element. -/
def windowsGo (size step : ℕ) : ℕ → List α → List (List α)
  | 0, _ => []
  | _, [] => []
  | fuel + 1, u :: us =>
    let w := (u :: us).take size
    let rest := windowsGo size step fuel ((u :: us).drop step)
    if w.isEmpty then rest else w :: rest

/-- The list of (non-empty) windows `units[i : i+size]` for
`i = 0, step, 2*step, ...` below `units.length`, with `step ≥ 1` expected. -/
def windows (units : List α) (size step : ℕ) : List (List α) :=
  windowsGo size step units.length units

theorem windowsGo_fuel_irrel (size step : ℕ) :
    ∀ (f g : ℕ) (units : List α), 1 ≤ step → units.length ≤ f → units.length ≤ g →
      windowsGo size step f units = windowsGo size step g units := by
  intro f
  induction f with
  | zero =>
    intro g units _ hf _
    have hnil : units = [] := List.eq_nil_of_length_eq_zero (Nat.le_zero.mp hf)
    subst hnil
    cases g <;> simp [windowsGo]
  | succ f ih =>
    intro g units hstep hf hg
    cases units with
    | nil => cases g <;> simp [windowsGo]
    | cons u us =>
      cases g with
      | zero => simp at hg
      | succ g =>
        simp only [windowsGo]
        rw [ih g ((u :: us).drop step) hstep
          (by simp only [List.length_drop, List.length_cons]
              simp only [List.length_cons] at hf
              omega)
          (by simp only [List.length_drop, List.length_cons]
              simp only [List.length_cons] at hg
              omega)]

theorem windows_nil (size step : ℕ) : windows ([] : List α) size step = [] := rfl

theorem windows_cons (size step : ℕ) (hstep : 1 ≤ step) (u : α) (us : List α) :
    windows (u :: us) size step =
      (if ((u :: us).take size).isEmpty then windows ((u :: us).drop step) size step
       else (u :: us).take size :: windows ((u :: us).drop step) size step) := by
  show windowsGo size step (u :: us).length (u :: us) = _
  rw [List.length_cons]
  simp only [windowsGo]
  rw [windowsGo_fuel_irrel size step us.length ((u :: us).drop step).length
    ((u :: us).drop step) hstep
    (by simp only [List.length_drop, List.length_cons]; omega) le_rfl]
  rfl

theorem windows_size_join (size : ℕ) (hsize : 1 ≤ size) (units : List α) :
    (windows units size size).flatten = units := by
  obtain ⟨k, rfl⟩ : ∃ k, size = k + 1 := ⟨size - 1, by omega⟩
  suffices h : ∀ (n : ℕ) (units : List α), units.length ≤ n →
      (windows units (k + 1) (k + 1)).flatten = units by
    exact h units.length units le_rfl
  intro n
  induction n with
  | zero =>
    intro units hu
    have hnil : units = [] := List.eq_nil_of_length_eq_zero (Nat.le_zero.mp hu)
    subst hnil
    simp [windows_nil]
  | succ n ih =>
    intro units hu
    cases units with
    | nil => simp [windows_nil]
    | cons u us =>
      rw [windows_cons (k + 1) (k + 1) (by omega)]
      rw [if_neg (by simp [List.take_succ_cons])]
      rw [List.flatten_cons]
      rw [ih ((u :: us).drop (k + 1))
        (by simp only [List.length_drop, List.length_cons]
            simp only [List.length_cons] at hu
            omega)]
      exact List.take_append_drop (k + 1) (u :: us)

/-- Python's `str.strip()`: drop leading and trailing whitespace.  (Lean's
own `String.trim` is extensionally the same but is defined through
well-founded recursion, which the kernel cannot evaluate; this structural
version keeps concrete chunker runs computable by `rfl`.) -/
def trimChars (s : String) : String :=
  String.mk (((s.data.dropWhile Char.isWhitespace).reverse.dropWhile Char.isWhitespace).reverse)

/-- Embedding of `DocumentChunker.chunk_by_sentences` (ml/rag.py, lines
12-42).  The regex split of the text into raw sentences is abstracted as the
input list; the strip-and-drop-empties step and the windowing loop are
modelled from the source.  A window step of `0` makes Python's
`range(0, n, 0)` raise `ValueError` (modelled as `Except.error`), and a
negative step makes `range(0, n, step)` produce no indices at all, so the
loop body never runs and the function returns `[]`. -/
def chunk_by_sentences (rawSentences : List String) (chunk_size overlap : ℕ) :
    Except String (List String) :=
  let sentences := (rawSentences.map trimChars).filter (fun s => !s.isEmpty)
  if sentences.isEmpty then .ok []
  else if (chunk_size : ℤ) - (overlap : ℤ) = 0 then .error ("range() arg 3 must not be zero")
  else if (chunk_size : ℤ) - (overlap : ℤ) < 0 then .ok []
  else .ok ((windows sentences chunk_size (chunk_size - overlap)).map
    (fun c => String.intercalate (" ") c))

/-- Embedding of `DocumentChunker.chunk_by_tokens` (ml/rag.py, lines 44-69).
The whitespace split `text.split()` is abstracted as the input word list.
Unlike `chunk_by_sentences` there is no early return on empty input, so a
zero step errors even for an empty text. -/
def chunk_by_tokens (words : List String) (max_tokens overlap_tokens : ℕ) :
    Except String (List String) :=
  if (max_tokens : ℤ) - (overlap_tokens : ℤ) = 0 then .error ("range() arg 3 must not be zero")
  else if (max_tokens : ℤ) - (overlap_tokens : ℤ) < 0 then .ok []
  else .ok ((windows words max_tokens (max_tokens - overlap_tokens)).map
    (fun c => String.intercalate (" ") c))

/-- C3: on a non-positive window step the chunkers neither raise an
`InvalidConfiguration`-style rejection nor clamp the step to `1`: with
`overlap > chunk_size` (step `< 0`) they silently return an empty chunk list,
discarding the whole non-empty document, and with `overlap = chunk_size`
(step `= 0`) they raise Python's bare `range()` `ValueError`. -/
theorem chunkers_nonpositive_step :
    chunk_by_sentences [("A."), ("B."), ("C.")] 1 2 = .ok [] ∧
    chunk_by_tokens [("A"), ("B"), ("C")] 1 2 = .ok [] ∧
    chunk_by_sentences [("A."), ("B."), ("C.")] 1 1 =
      .error ("range() arg 3 must not be zero") ∧
    chunk_by_tokens [("A"), ("B"), ("C")] 2 2 =
      .error ("range() arg 3 must not be zero") := by
  refine ⟨?_, ?_, ?_, ?_⟩ <;> rfl

/-- C7: with `overlap = 0` and any window size `≥ 1`, the windows produced by
both window chunkers concatenate back to exactly the unit sequence they were
cut from (every unit appears once, in order), and each chunker returns
exactly those windows (joined with single spaces). -/
theorem chunking_zero_overlap_round_trip (words rawSentences : List String) (size : ℕ)
    (hsize : 1 ≤ size) :
    (windows words size size).flatten = words ∧
    chunk_by_tokens words size 0 =
      .ok ((windows words size size).map (fun c => String.intercalate (" ") c)) ∧
    (windows ((rawSentences.map trimChars).filter (fun s => !s.isEmpty)) size size).flatten =
      (rawSentences.map trimChars).filter (fun s => !s.isEmpty) ∧
    chunk_by_sentences rawSentences size 0 =
      .ok ((windows ((rawSentences.map trimChars).filter (fun s => !s.isEmpty)) size size).map
        (fun c => String.intercalate (" ") c)) := by
  have hz : ¬((size : ℤ) - (0 : ℕ) = 0) := by
    simp only [Nat.cast_zero, sub_zero]
    exact_mod_cast Nat.pos_iff_ne_zero.mp hsize
  have hneg : ¬((size : ℤ) - (0 : ℕ) < 0) := by
    simp only [Nat.cast_zero, sub_zero]
    exact not_lt.mpr (Int.natCast_nonneg size)
  refine ⟨windows_size_join size hsize words, ?_, windows_size_join size hsize _, ?_⟩
  · rw [chunk_by_tokens]
    rw [if_neg hz]
    rw [if_neg hneg]
    rw [Nat.sub_zero]
  · rw [chunk_by_sentences]
    by_cases hemp : ((rawSentences.map trimChars).filter (fun s => !s.isEmpty)).isEmpty
    · rw [if_pos hemp, List.isEmpty_iff.mp hemp, windows_nil]
      rfl
    · rw [if_neg hemp]
      rw [if_neg hz]
      rw [if_neg hneg]
      rw [Nat.sub_zero]

/-- Witness for `chunking_zero_overlap_round_trip` at a concrete document of
five tokens/sentences and window size `2`. -/
theorem chunking_zero_overlap_round_trip_witness :
    (windows [("a"), ("b"), ("c"), ("d"), ("e")] 2 2).flatten =
      [("a"), ("b"), ("c"), ("d"), ("e")] ∧
    chunk_by_tokens [("a"), ("b"), ("c"), ("d"), ("e")] 2 0 =
      .ok ((windows [("a"), ("b"), ("c"), ("d"), ("e")] 2 2).map
        (fun c => String.intercalate (" ") c)) ∧
    (windows (([("A."), ("B."), ("C.")].map trimChars).filter (fun s => !s.isEmpty)) 2 2).flatten =
      ([("A."), ("B."), ("C.")].map trimChars).filter (fun s => !s.isEmpty) ∧
    chunk_by_sentences [("A."), ("B."), ("C.")] 2 0 =
      .ok ((windows (([("A."), ("B."), ("C.")].map trimChars).filter
          (fun s => !s.isEmpty)) 2 2).map
        (fun c => String.intercalate (" ") c)) :=
  chunking_zero_overlap_round_trip [("a"), ("b"), ("c"), ("d"), ("e")]
    [("A."), ("B."), ("C.")] 2 (by norm_num)

/-- Metadata dictionaries are modelled as string-keyed association lists
(later entries override earlier ones on key collision, matching the
`{**base, ...}` splat merge of the source). -/
abbrev Meta : Type := List (String × String)

/-- State of `VectorStore` (ml/vector_store.py): the FAISS index object is
represented by the list of inserted vectors, in insertion order. -/
structure VectorStore where
  dimension : ℕ
  index_type : String
  vectors : List (List ℚ)
  documents : List String
  metadata : List Meta
deriving DecidableEq

/-- Embedding of `VectorStore.__init__` with `_create_index`
(ml/vector_store.py, lines 13-40): an unknown index type raises `ValueError`,
otherwise the store starts empty. -/
def VectorStore.init (dimension : ℕ) (index_type : String) : Except String VectorStore :=
  if index_type = ("flat") ∨ index_type = ("ivf") ∨ index_type = ("hnsw") then
    .ok ⟨dimension, index_type, [], [], []⟩
  else .error (("Unknown index type: ") ++ index_type)

/-- Embedding of `VectorStore.add` (ml/vector_store.py, lines 42-74) as an
explicit state transformer: the first component is `Except.error` exactly
when the Python method raises, the second is the store afterwards.  The
length check precedes every mutation; `if metadata:` is Python truthiness,
so an empty metadata list is padded exactly like an omitted one. -/
def VectorStore.add (s : VectorStore) (embeddings : List (List ℚ)) (documents : List String)
    (metadata : Option (List Meta)) : Except String Unit × VectorStore :=
  if embeddings.length ≠ documents.length then
    (.error ("Number of embeddings must match number of documents"), s)
  else
    (.ok (), { s with
      vectors := s.vectors ++ embeddings
      documents := s.documents ++ documents
      metadata := s.metadata ++
        (match metadata with
         | some l => if l.isEmpty then List.replicate documents.length [] else l
         | none => List.replicate documents.length []) })

/-- Squared Euclidean distance, the metric of `faiss.IndexFlatL2`. -/
def sqDist (q v : List ℚ) : ℚ := (q.zipWith (fun a b => (a - b) ^ 2) v).sum

/-- Ranking order of search candidates `(distance, insertion index)`:
ascending distance, ties broken by earlier insertion. -/
def distRank (a b : ℚ × ℕ) : Prop := a.1 < b.1 ∨ (a.1 = b.1 ∧ a.2 ≤ b.2)

instance : DecidableRel distRank := fun a b =>
  decidable_of_iff (a.1 < b.1 ∨ (a.1 = b.1 ∧ a.2 ≤ b.2)) Iff.rfl

instance : IsTotal (ℚ × ℕ) distRank :=
  ⟨fun a b => by
    rcases lt_trichotomy a.1 b.1 with h | h | h
    · exact Or.inl (Or.inl h)
    · rcases Nat.le_total a.2 b.2 with h2 | h2
      · exact Or.inl (Or.inr ⟨h, h2⟩)
      · exact Or.inr (Or.inr ⟨h.symm, h2⟩)
    · exact Or.inr (Or.inl h)⟩

instance : IsTrans (ℚ × ℕ) distRank :=
  ⟨by
    rintro a b c (hab | ⟨hab, hab2⟩) (hbc | ⟨hbc, hbc2⟩)
    · exact Or.inl (lt_trans hab hbc)
    · exact Or.inl (lt_of_lt_of_le hab (le_of_eq hbc))
    · exact Or.inl (lt_of_le_of_lt (le_of_eq hab) hbc)
    · exact Or.inr ⟨hab.trans hbc, le_trans hab2 hbc2⟩⟩

/-- Modelled from the spec: the exact (`flat`) FAISS nearest-neighbour search
behind `self.index.search(query, m)` (ml/vector_store.py, line 102) —
library code not part of this repository.  Spec §4.3: the results are the
stored entries ordered by ascending (squared-L2) distance with ties broken
by insertion order, truncated to the requested count; sorting the enumerated
entries by `distRank` realises exactly that contract. -/
def flatSearch (vectors : List (List ℚ)) (q : List ℚ) (m : ℕ) : List (ℚ × ℕ) :=
  (List.insertionSort distRank (vectors.enum.map (fun p => (sqDist q p.2, p.1)))).take m

/-- Embedding of `VectorStore.search` (ml/vector_store.py, lines 76-118):
an empty store short-circuits to `[]`; otherwise the top
`min k (number of documents)` candidates of the index are filtered — skip
out-of-range ids, skip distances strictly above the threshold when one is
given — and mapped to `(document, distance, metadata)` tuples. -/
def VectorStore.search (s : VectorStore) (q : List ℚ) (k : ℕ) (threshold : Option ℚ) :
    List (String × ℚ × Meta) :=
  if s.documents.isEmpty then []
  else
    ((flatSearch s.vectors q (min k s.documents.length)).filter
      (fun p => decide (p.2 < s.documents.length) &&
        (match threshold with
         | some t => decide (p.1 ≤ t)
         | none => true))).map
      (fun p => (s.documents.getD p.2 (""), p.1, s.metadata.getD p.2 []))

/-- C8: an `add` whose number of embeddings differs from its number of
documents fails with the length-mismatch `ValueError` and returns the store
exactly as it was — no vector, document or metadata entry of the batch is
inserted. -/
theorem add_length_mismatch (s : VectorStore) (e : List (List ℚ)) (d : List String)
    (md : Option (List Meta)) (h : e.length ≠ d.length) :
    s.add e d md = (.error ("Number of embeddings must match number of documents"), s) := by
  rw [VectorStore.add.eq_def, if_pos h]

/-- Witness for `add_length_mismatch`: one embedding against zero documents
on a store holding one entry. -/
theorem add_length_mismatch_witness :
    VectorStore.add ⟨2, ("flat"), [[1, 2]], [("x")], [[]]⟩ [[3, 4]] [] none =
      (.error ("Number of embeddings must match number of documents"),
        ⟨2, ("flat"), [[1, 2]], [("x")], [[]]⟩) :=
  add_length_mismatch ⟨2, ("flat"), [[1, 2]], [("x")], [[]]⟩ [[3, 4]] [] none (by decide)

/-- C10: the documents list and the metadata list stay the same length —
after construction, and after every successful `add` whose metadata is
omitted or matches the texts in length — and every tuple `search` builds
pairs the text and the metadata stored at one and the same position. -/
theorem documents_metadata_aligned :
    (∀ (dim : ℕ) (ty : String) (s0 : VectorStore), VectorStore.init dim ty = .ok s0 →
      s0.documents.length = s0.metadata.length) ∧
    (∀ (s : VectorStore) (e : List (List ℚ)) (d : List String) (md : Option (List Meta))
        (r : Except String Unit) (s1 : VectorStore),
      s.documents.length = s.metadata.length →
      (md = none ∨ ∃ l, md = some l ∧ l.length = d.length) →
      s.add e d md = (r, s1) → r = .ok () →
      s1.documents.length = s1.metadata.length) ∧
    (∀ (s : VectorStore) (q : List ℚ) (k : ℕ) (th : Option ℚ) (r : String × ℚ × Meta),
      s.documents.length = s.metadata.length →
      r ∈ s.search q k th →
      ∃ i : ℕ, s.documents[i]? = some r.1 ∧ s.metadata[i]? = some r.2.2) := by
  refine ⟨?_, ?_, ?_⟩
  · intro dim ty s0 h
    rw [VectorStore.init] at h
    split at h
    · cases h
      rfl
    · cases h
  · intro s e d md r s1 hlen hmd hadd hr
    rw [VectorStore.add.eq_def] at hadd
    split at hadd
    · rw [Prod.mk.injEq] at hadd
      rw [← hadd.1] at hr
      cases hr
    · rw [Prod.mk.injEq] at hadd
      rw [← hadd.2]
      rcases hmd with rfl | ⟨l, rfl, hl⟩
      · dsimp only
        simp only [List.length_append, List.length_replicate]
        omega
      · dsimp only
        by_cases hle : l.isEmpty
        · have hnil : l = [] := List.isEmpty_iff.mp hle
          subst hnil
          simp only [List.length_nil] at hl
          simp only [List.isEmpty_nil, if_true, List.length_append, List.length_replicate]
          omega
        · rw [if_neg (by simp [hle])]
          simp only [List.length_append, hl]
          omega
  · intro s q k th r hlen hmem
    rw [VectorStore.search] at hmem
    split at hmem
    · cases hmem
    · obtain ⟨p, hp, rfl⟩ := List.mem_map.mp hmem
      have hpf := List.mem_filter.mp hp
      have hbound : p.2 < s.documents.length := by
        have := hpf.2
        simp only [Bool.and_eq_true, decide_eq_true_eq] at this
        exact this.1
      refine ⟨p.2, ?_, ?_⟩
      · rw [List.getElem?_eq_getElem hbound, List.getD_eq_getElem s.documents ("") hbound]
      · have hb2 : p.2 < s.metadata.length := hlen ▸ hbound
        rw [List.getElem?_eq_getElem hb2, List.getD_eq_getElem s.metadata [] hb2]

/-- Witness for `documents_metadata_aligned`: its `add` clause applied to a
fresh store receiving two documents with omitted metadata. -/
theorem documents_metadata_aligned_witness :
    (VectorStore.add ⟨2, ("flat"), [], [], []⟩ [[1, 0], [0, 1]] [("a"), ("b")] none).2.documents.length =
      (VectorStore.add ⟨2, ("flat"), [], [], []⟩ [[1, 0], [0, 1]] [("a"), ("b")] none).2.metadata.length :=
  documents_metadata_aligned.2.1 ⟨2, ("flat"), [], [], []⟩ [[1, 0], [0, 1]] [("a"), ("b")] none
    (VectorStore.add ⟨2, ("flat"), [], [], []⟩ [[1, 0], [0, 1]] [("a"), ("b")] none).1
    (VectorStore.add ⟨2, ("flat"), [], [], []⟩ [[1, 0], [0, 1]] [("a"), ("b")] none).2
    rfl (Or.inl rfl) rfl rfl

theorem flatSearch_sorted (vectors : List (List ℚ)) (q : List ℚ) (m : ℕ) :
    List.Sorted distRank (flatSearch vectors q m) :=
  List.Pairwise.sublist (List.take_sublist m _) (List.sorted_insertionSort distRank _)

/-- C2: `search` returns at most `min k (index size)` results; the candidate
ranking is sorted by ascending distance with ties broken by insertion order
(earlier-inserted first); the returned distances are ascending; a threshold
excludes exactly the results whose distance exceeds it; and searching an
empty index returns `[]` rather than failing. -/
theorem search_contract (s : VectorStore) (q : List ℚ) (k : ℕ) (t : ℚ) :
    (∀ th, (s.search q k th).length ≤ min k s.documents.length) ∧
    List.Sorted distRank (flatSearch s.vectors q (min k s.documents.length)) ∧
    List.Sorted (fun a b : String × ℚ × Meta => a.2.1 ≤ b.2.1) (s.search q k none) ∧
    s.search q k (some t) = (s.search q k none).filter (fun r => decide (r.2.1 ≤ t)) ∧
    (s.documents = [] → ∀ th, s.search q k th = []) := by
  refine ⟨?_, flatSearch_sorted s.vectors q (min k s.documents.length), ?_, ?_, ?_⟩
  · intro th
    rw [VectorStore.search]
    split
    · simp
    · rw [List.length_map]
      calc (List.filter _ (flatSearch s.vectors q (min k s.documents.length))).length
          ≤ (flatSearch s.vectors q (min k s.documents.length)).length :=
            List.length_filter_le _ _
        _ ≤ min k s.documents.length := by
            rw [flatSearch, List.length_take]
            exact min_le_left _ _
  · rw [VectorStore.search]
    split
    · simp
    · show List.Pairwise _ _
      rw [List.pairwise_map]
      refine List.Pairwise.imp ?_
        (List.Pairwise.filter _ (flatSearch_sorted s.vectors q (min k s.documents.length)))
      intro a b hab
      exact hab.elim (fun h => le_of_lt h) (fun h => le_of_eq h.1)
  · rw [VectorStore.search, VectorStore.search]
    by_cases hemp : s.documents.isEmpty
    · rw [if_pos hemp, if_pos hemp]
      rfl
    · rw [if_neg hemp, if_neg hemp]
      rw [List.filter_map, List.filter_filter]
      apply congrArg
      apply List.filter_congr
      intro p hp
      dsimp only
      cases hb : decide (p.2 < s.documents.length) <;> cases ht : decide (p.1 ≤ t) <;>
        simp_all
  · intro h th
    rw [VectorStore.search]
    rw [if_pos (by simp [h])]

/-- Witness for `search_contract`: a two-entry store queried with `k = 5` and
threshold `1/2`. -/
theorem search_contract_witness :
    (∀ th, ((VectorStore.mk 2 ("flat") [[0, 0], [1, 1]] [("a"), ("b")] [[], []]).search
        [0, 0] 5 th).length ≤
      min 5 (VectorStore.mk 2 ("flat") [[0, 0], [1, 1]] [("a"), ("b")] [[], []]).documents.length) ∧
    List.Sorted distRank (flatSearch
      (VectorStore.mk 2 ("flat") [[0, 0], [1, 1]] [("a"), ("b")] [[], []]).vectors [0, 0]
      (min 5 (VectorStore.mk 2 ("flat") [[0, 0], [1, 1]] [("a"), ("b")] [[], []]).documents.length)) ∧
    List.Sorted (fun a b : String × ℚ × Meta => a.2.1 ≤ b.2.1)
      ((VectorStore.mk 2 ("flat") [[0, 0], [1, 1]] [("a"), ("b")] [[], []]).search [0, 0] 5 none) ∧
    (VectorStore.mk 2 ("flat") [[0, 0], [1, 1]] [("a"), ("b")] [[], []]).search [0, 0] 5
        (some (1 / 2)) =
      ((VectorStore.mk 2 ("flat") [[0, 0], [1, 1]] [("a"), ("b")] [[], []]).search
        [0, 0] 5 none).filter (fun r => decide (r.2.1 ≤ 1 / 2)) ∧
    ((VectorStore.mk 2 ("flat") [[0, 0], [1, 1]] [("a"), ("b")] [[], []]).documents = [] →
      ∀ th, (VectorStore.mk 2 ("flat") [[0, 0], [1, 1]] [("a"), ("b")] [[], []]).search
        [0, 0] 5 th = []) :=
  search_contract (VectorStore.mk 2 ("flat") [[0, 0], [1, 1]] [("a"), ("b")] [[], []]) [0, 0] 5 (1 / 2)

/-- The paragraph-accumulation loop of `DocumentChunker.chunk_by_paragraphs`
(ml/rag.py, lines 85-101): skip blank paragraphs, append the stripped
paragraph to the running buffer, flush the joined buffer as one chunk once
its length reaches `min_length`, and flush any remainder at the end. -/
def parasGo (min_length : ℕ) : List String → List String → List String
  | [], current =>
    if current.isEmpty then [] else [String.intercalate ("\n\n") current]
  | para :: rest, current =>
    let p := trimChars para
    if p.isEmpty then parasGo min_length rest current
    else
      let cur := current ++ [p]
      let txt := String.intercalate ("\n\n") cur
      if min_length ≤ txt.length then txt :: parasGo min_length rest []
      else parasGo min_length rest cur

/-- Embedding of `DocumentChunker.chunk_by_paragraphs` (ml/rag.py, lines
71-103); the split of the text on blank lines is abstracted as the input
paragraph list. -/
def chunk_by_paragraphs (paragraphs : List String) (min_length : ℕ) : List String :=
  parasGo min_length paragraphs []

/-- The per-document dispatch of `RAGPipeline.add_documents` (ml/rag.py,
lines 149-156): the known methods call the chunkers with their source-level
default overlaps (`overlap = 1`, `overlap_tokens = 50`), an unknown method
raises `ValueError`. -/
def chunkDispatch (chunk_method : String) (doc : List String) (chunk_size : ℕ) :
    Except String (List String) :=
  if chunk_method = ("sentences") then chunk_by_sentences doc chunk_size 1
  else if chunk_method = ("tokens") then chunk_by_tokens doc chunk_size 50
  else if chunk_method = ("paragraphs") then .ok (chunk_by_paragraphs doc chunk_size)
  else .error (("Unknown chunk method: ") ++ chunk_method)

/-- The chunk-collection loop of `RAGPipeline.add_documents` (ml/rag.py,
lines 144-168): documents are processed in order (`idx` is the document id);
the first raising document aborts everything; each chunk's metadata is the
document metadata (Python truthiness on the optional list) merged with the
`doc_id`/`chunk_id`/`total_chunks` position fields. -/
def collectChunks (chunk_method : String) (chunk_size : ℕ) (metadata : Option (List Meta)) :
    List (List String) → ℕ → Except String (List String × List Meta)
  | [], _ => .ok ([], [])
  | doc :: rest, idx =>
    (chunkDispatch chunk_method doc chunk_size).bind (fun chunks =>
      (collectChunks chunk_method chunk_size metadata rest (idx + 1)).bind (fun csms =>
        let docMeta : Meta := match metadata with
          | some l => if l.isEmpty then [] else l.getD idx []
          | none => []
        .ok (chunks ++ csms.1,
          (chunks.enum.map (fun c => docMeta ++
            [(("doc_id"), toString idx), (("chunk_id"), toString c.1),
             (("total_chunks"), toString chunks.length)])) ++ csms.2)))

/-- Embedding of `RAGPipeline.add_documents` (ml/rag.py, lines 128-173),
with the pipeline state reduced to its `VectorStore` and the embedding
engine's `encode` passed in as an opaque function (it is only ever called
after all chunking succeeded, on a non-empty chunk batch). -/
def add_documents (s : VectorStore) (embed : List String → List (List ℚ))
    (documents : List (List String)) (chunk_method : String) (chunk_size : ℕ)
    (metadata : Option (List Meta)) : Except String Unit × VectorStore :=
  match collectChunks chunk_method chunk_size metadata documents 0 with
  | .error e => (.error e, s)
  | .ok (allChunks, allMeta) =>
    if allChunks.isEmpty then (.ok (), s)
    else s.add (embed allChunks) allChunks (some allMeta)

/-- C9 (amended): for every NON-EMPTY document list and every chunk-method
name outside `sentences`/`tokens`/`paragraphs`, `add_documents` fails with
the `Unknown chunk method` error, the store is returned unchanged (nothing
inserted), and — since this holds for every embedding function `embed` —
no embedding computation influences the outcome. -/
theorem add_documents_unknown_method (s : VectorStore) (embed : List String → List (List ℚ))
    (documents : List (List String)) (chunk_method : String) (chunk_size : ℕ)
    (metadata : Option (List Meta))
    (hm : chunk_method ∉ [("sentences"), ("tokens"), ("paragraphs")])
    (hd : documents ≠ []) :
    add_documents s embed documents chunk_method chunk_size metadata =
      (.error (("Unknown chunk method: ") ++ chunk_method), s) := by
  obtain ⟨doc, rest, rfl⟩ := List.exists_cons_of_ne_nil hd
  simp only [List.mem_cons, List.not_mem_nil, or_false, not_or] at hm
  have hdisp : chunkDispatch chunk_method doc chunk_size =
      .error (("Unknown chunk method: ") ++ chunk_method) := by
    rw [chunkDispatch, if_neg hm.1, if_neg hm.2.1, if_neg hm.2.2]
  rw [add_documents, collectChunks.eq_def]
  dsimp only
  rw [hdisp]
  rfl

/-- C9 counterexample: on an EMPTY document list an unknown chunk-method
name is never examined — the loop body never runs — so `add_documents`
returns successfully instead of failing with `InvalidConfiguration`. -/
theorem add_documents_unknown_method_empty_docs :
    add_documents ⟨3, ("flat"), [], [], []⟩ (fun l => l.map (fun _ => [0])) [] ("bogus") 3 none =
      (.ok (), ⟨3, ("flat"), [], [], []⟩) := rfl

/-- Witness for `add_documents_unknown_method`: one single-word document and
the method name `bogus`. -/
theorem add_documents_unknown_method_witness :
    add_documents ⟨3, ("flat"), [], [], []⟩ (fun l => l.map (fun _ => [0])) [[("w")]]
        ("bogus") 3 none =
      (.error (("Unknown chunk method: ") ++ ("bogus")), ⟨3, ("flat"), [], [], []⟩) :=
  add_documents_unknown_method ⟨3, ("flat"), [], [], []⟩ (fun l => l.map (fun _ => [0]))
    [[("w")]] ("bogus") 3 none (by decide) (by decide)

end Deepgrep
